import Mathlib

/-!
# Verification of the `openblas-src` build-introspection subsystem

Shallow embedding of `openblas-build/src/check.rs`: the linker-flag parser
(`LinkInfo::parse`), the build-configuration parser (`MakeConf::new`), and the
binary-artifact introspector (`LibDetail`) with its capability predicates.

Rust strings are modelled as Lean `String`; slice/str operations used by the
code (`split` on a one-character pattern, `trim`, `starts_with`,
`trim_start_matches`) are re-implemented below on `List Char` so that every
definition reduces in the kernel.  Filesystem queries (`Path::exists`,
`Path::canonicalize`) are modelled by an explicit record of oracles, and every
Rust `panic!`/`expect` is modelled as the `Except.error` case.
-/

/-- Model of Rust `str::split` with a one-character pattern: splits at every
occurrence of `c`, keeping empty pieces, so the result always has at least one
element (`splitOnChar c [] = [[]]`, just as `"".split(c)` yields `[""]`). -/
def splitOnChar (c : Char) : List Char → List (List Char)
  | [] => [[]]
  | a :: rest =>
    if a = c then
      [] :: splitOnChar c rest
    else
      match splitOnChar c rest with
      | [] => [[a]]
      | h :: t => (a :: h) :: t

/-- `String` version of `splitOnChar`. -/
def splitStr (c : Char) (s : String) : List String :=
  (splitOnChar c s.data).map (fun l => ⟨l⟩)

/-- Model of Rust `str::starts_with` for a string pattern. -/
def strStartsWith (s pat : String) : Bool :=
  pat.data.isPrefixOf s.data

/-- One step of `trim_start_matches`, with explicit fuel.  Each iteration that
fires removes `pat.length ≥ 1` characters, so `s.length + 1` units of fuel are
always enough; the fuel only makes the recursion structural. -/
def trimStartFuel (pat : List Char) : Nat → List Char → List Char
  | 0, s => s
  | fuel + 1, s =>
    if pat ≠ [] ∧ pat.isPrefixOf s = true then
      trimStartFuel pat fuel (s.drop pat.length)
    else s

/-- Model of Rust `str::trim_start_matches`: repeatedly removes the prefix
`pat` from the front of `s` as long as it matches. -/
def trimStartMatches (s pat : String) : String :=
  ⟨trimStartFuel pat.data (s.data.length + 1) s.data⟩

/-- Model of Rust `str::trim`: removes leading and trailing whitespace. -/
def strTrim (s : String) : String :=
  ⟨(((s.data.dropWhile Char.isWhitespace).reverse).dropWhile Char.isWhitespace).reverse⟩

/-- Lexicographic ordering on character lists, as a Boolean test.  This is the
order Rust's `Vec::sort` uses on `String` values (code-point lexicographic,
which agrees with byte-wise UTF-8 comparison). -/
def charListLe : List Char → List Char → Bool
  | [], _ => true
  | _ :: _, [] => false
  | a :: as, b :: bs => if a = b then charListLe as bs else decide (a < b)

/-- The ordering on `String` induced by `charListLe`. -/
def strLe (s t : String) : Prop := charListLe s.data t.data = true

instance : DecidableRel strLe := fun s t =>
  instDecidableEqBool (charListLe s.data t.data) true

theorem charListLe_total (as bs : List Char) :
    charListLe as bs = true ∨ charListLe bs as = true := by
  induction as generalizing bs with
  | nil => left; rfl
  | cons a as ih =>
    cases bs with
    | nil => right; rfl
    | cons b bs =>
      by_cases hab : a = b
      · subst hab
        rcases ih bs with h | h
        · left; simp [charListLe, h]
        · right; simp [charListLe, h]
      · rcases lt_or_gt_of_ne hab with h | h
        · left; simp [charListLe, hab, h]
        · right; simp [charListLe, Ne.symm hab, h, not_lt.mpr (le_of_lt h)]

instance : IsTotal String strLe := ⟨fun s t => charListLe_total s.data t.data⟩

theorem charListLe_trans (as : List Char) : ∀ bs cs, charListLe as bs = true →
    charListLe bs cs = true → charListLe as cs = true := by
  induction as with
  | nil => intro bs cs h1 h2; rfl
  | cons a as ih =>
    intro bs cs h1 h2
    cases bs with
    | nil => simp [charListLe] at h1
    | cons b bs =>
      cases cs with
      | nil => simp [charListLe] at h2
      | cons c cs =>
        by_cases hab : a = b <;> by_cases hbc : b = c
        · subst hab; subst hbc
          simp [charListLe] at h1 h2 ⊢
          exact ih _ _ h1 h2
        · subst hab
          simp [charListLe, hbc] at h2 ⊢
          simp [h2]
        · subst hbc
          simp [charListLe, hab] at h1 ⊢
          simp [h1]
        · simp [charListLe, hab] at h1
          simp [charListLe, hbc] at h2
          have hac : a < c := lt_trans h1 h2
          simp [charListLe, ne_of_lt hac, hac]

instance : IsTrans String strLe := ⟨fun s t u => charListLe_trans s.data t.data u.data⟩

theorem charListLe_antisymm (as : List Char) : ∀ bs, charListLe as bs = true →
    charListLe bs as = true → as = bs := by
  induction as with
  | nil =>
    intro bs _ h2
    cases bs with
    | nil => rfl
    | cons b bs => simp [charListLe] at h2
  | cons a as ih =>
    intro bs h1 h2
    cases bs with
    | nil => simp [charListLe] at h1
    | cons b bs =>
      by_cases hab : a = b
      · subst hab
        simp [charListLe] at h1 h2
        exact congrArg _ (ih bs h1 h2)
      · simp [charListLe, hab] at h1
        simp [charListLe, Ne.symm hab] at h2
        exact absurd (lt_trans h1 h2) (lt_irrefl a)

instance : IsAntisymm String strLe :=
  ⟨fun s t h1 h2 => by
    cases s; cases t
    exact congrArg String.mk (charListLe_antisymm _ _ h1 h2)⟩

/-- Decidable equality for `Except`, needed to settle concrete runs by `decide`. -/
instance {e a : Type} [DecidableEq e] [DecidableEq a] : DecidableEq (Except e a) :=
  fun x y =>
    match x, y with
    | .error e1, .error e2 =>
      if h : e1 = e2 then isTrue (by rw [h]) else isFalse (fun hc => h (Except.error.inj hc))
    | .error _, .ok _ => isFalse (fun hc => Except.noConfusion hc)
    | .ok _, .error _ => isFalse (fun hc => Except.noConfusion hc)
    | .ok a1, .ok a2 =>
      if h : a1 = a2 then isTrue (by rw [h]) else isFalse (fun hc => h (Except.ok.inj hc))

/-- Filesystem oracles used by `LinkInfo::parse`: `Path::exists` and
`Path::canonicalize` (`none` models canonicalization failure). -/
structure FsModel where
  pathExists : String → Bool
  canonicalize : String → Option String

/-- Result of parsing one linker-flag string (`struct LinkInfo`). -/
structure LinkInfo where
  search_paths : List String
  libs : List String
deriving DecidableEq

/-- Model of `HashSet::insert`: the set is kept as a duplicate-free list. -/
def hsInsert (x : String) (s : List String) : List String :=
  if x ∈ s then s else x :: s

/-- `fn as_sorted_vec`: renders the (deduplicated) set as a sorted sequence. -/
def as_sorted_vec (s : List String) : List String :=
  List.insertionSort strLe s

/-- One iteration of the loop body of `LinkInfo::parse` on a single token.
`-L` tokens whose path does not exist are dropped (`continue`); an existing
path that fails to canonicalize hits `.expect("Failed to canonicalize path")`,
modelled as an error.  The `-l` test is reached exactly when the Rust control
flow reaches it. -/
def processEntry (fs : FsModel) (entry : String) (sp libs : List String) :
    Except String (List String × List String) :=
  if strStartsWith entry "-L" then
    let path := trimStartMatches entry "-L"
    if fs.pathExists path = false then
      .ok (sp, libs)
    else
      match fs.canonicalize path with
      | none => .error "Failed to canonicalize path"
      | some c =>
        if strStartsWith entry "-l" then
          .ok (hsInsert c sp, hsInsert (trimStartMatches entry "-l") libs)
        else
          .ok (hsInsert c sp, libs)
  else if strStartsWith entry "-l" then
    .ok (sp, hsInsert (trimStartMatches entry "-l") libs)
  else
    .ok (sp, libs)

/-- The loop of `LinkInfo::parse` over the tokens of the flag string, with the
two `HashSet` accumulators, followed by the final `as_sorted_vec` rendering. -/
def parseEntries (fs : FsModel) : List String → List String → List String →
    Except String LinkInfo
  | [], sp, libs => .ok ⟨as_sorted_vec sp, as_sorted_vec libs⟩
  | entry :: rest, sp, libs =>
    match processEntry fs entry sp libs with
    | .error e => .error e
    | .ok (sp2, libs2) => parseEntries fs rest sp2 libs2

/-- `LinkInfo::parse`: splits the flag string on single spaces and folds the
loop body over the tokens. -/
def LinkInfo.parse (fs : FsModel) (line : String) : Except String LinkInfo :=
  parseEntries fs (splitStr ' ' line) [] []

/-- Result of parsing `Makefile.conf` (`struct MakeConf`).  `no_fortran = true`
means Fortran support is disabled; the spec-level `fortran_enabled` is its
negation. -/
structure MakeConf where
  os_name : String
  no_fortran : Bool
  c_extra_libs : LinkInfo
  f_extra_libs : LinkInfo
deriving DecidableEq

/-- `MakeConf::default()`: empty strings/lists, Fortran enabled. -/
def MakeConf.default : MakeConf :=
  ⟨"", false, ⟨[], []⟩, ⟨[], []⟩⟩

/-- The `match entry[0]` dispatch of `MakeConf::new` on a well-formed
`KEY=VALUE` line: recognized keys update the record, anything else is
skipped (`_ => continue`). -/
def MakeConf.applyEntry (fs : FsModel) (detail : MakeConf) (k v : String) :
    Except String MakeConf :=
  if k = "OSNAME" then
    .ok { detail with os_name := v }
  else if k = "NOFORTRAN" then
    .ok { detail with no_fortran := true }
  else if k = "CEXTRALIB" then
    match LinkInfo.parse fs v with
    | .error e => .error e
    | .ok li => .ok { detail with c_extra_libs := li }
  else if k = "FEXTRALIB" then
    match LinkInfo.parse fs v with
    | .error e => .error e
    | .ok li => .ok { detail with f_extra_libs := li }
  else
    .ok detail

/-- The loop body of `MakeConf::new` on one line of the configuration file:
empty lines are skipped, lines that do not split on `=` into exactly two
fields are skipped (`entry.len() != 2 → continue`, the wildcard match arm
below), and the two fields are otherwise dispatched on the key. -/
def MakeConf.processLine (fs : FsModel) (detail : MakeConf) (line : String) :
    Except String MakeConf :=
  if line.length = 0 then
    .ok detail
  else
    match splitStr '=' line with
    | [k, v] => MakeConf.applyEntry fs detail k v
    | _ => .ok detail

/-- `MakeConf::new`, with the already-read and decoded lines of the file as
input (`BufReader::lines`).  The panic inside `LinkInfo::parse` propagates as
the error case. -/
def MakeConf.new (fs : FsModel) (lines : List String) : Except String MakeConf :=
  List.foldlM (MakeConf.processLine fs) MakeConf.default lines

/-- One line of `nm -g` output, as processed by the closure in
`LibDetail::new`.  The Rust code evaluates
`entry.len() != 3 && entry[2] == "T"`; `entry[2]` panics (out-of-bounds,
modelled as `.error`) whenever it is evaluated on a line with fewer than three
fields.  `.ok none` is a skipped line, `.ok (some sym)` a collected symbol. -/
def parseNmLine (line : String) : Except String (Option String) :=
  let entry := splitStr ' ' (strTrim line)
  if entry.length ≠ 3 then
    match entry.get? 2 with
    | none => .error "index out of bounds"
    | some e2 => if e2 = "T" then .ok none else .ok (some e2)
  else
    match entry.get? 2 with
    | none => .error "index out of bounds"
    | some e2 => .ok (some e2)

/-- One line of `objdump -p` output: a trimmed line starting with `NEEDED`
yields a dependency name (marker stripped, rest trimmed). -/
def parseNeededLine (line : String) : Option String :=
  if strStartsWith (strTrim line) "NEEDED" then
    some (strTrim (trimStartMatches (strTrim line) "NEEDED"))
  else
    none

/-- Introspection result for one artifact (`struct LibDetail`). -/
structure LibDetail where
  path : String
  libs : List String
  symbols : List String
deriving DecidableEq

/-- `LibDetail::new`, with the captured stdout lines of the two external tools
as input.  The `path.exists()` panic and every panic inside the nm-line
closure are modelled as errors; both collected lists are sorted (duplicates
kept: `Vec::sort`, not a set). -/
def LibDetail.new (fs : FsModel) (path : String) (nmOut objdumpOut : List String) :
    Except String LibDetail :=
  if fs.pathExists path = false then
    .error ("File not found: " ++ path)
  else
    match List.mapM parseNmLine nmOut with
    | .error e => .error e
    | .ok opts =>
      .ok { path := path
            libs := List.insertionSort strLe (objdumpOut.filterMap parseNeededLine)
            symbols := List.insertionSort strLe (opts.filterMap id) }

/-- `LibDetail::has_cblas`. -/
def LibDetail.has_cblas (d : LibDetail) : Bool :=
  d.symbols.any (fun sym => strStartsWith sym "cblas_")

/-- `LibDetail::has_lapack`. -/
def LibDetail.has_lapack (d : LibDetail) : Bool :=
  d.symbols.any (fun sym => sym = "dsyev_")

/-- `LibDetail::has_lapacke`. -/
def LibDetail.has_lapacke (d : LibDetail) : Bool :=
  d.symbols.any (fun sym => strStartsWith sym "LAPACKE_")

/-- `LibDetail::has_lib`: some dependency, truncated at its first `.`
(`lib.split(".").next()`), equals `"lib" ++ name`. -/
def LibDetail.has_lib (d : LibDetail) (name : String) : Bool :=
  d.libs.any (fun lib =>
    match (splitStr '.' lib).head? with
    | some stem => stem = "lib" ++ name
    | none => false)

/-- A filesystem on which no path exists. -/
def fsNone : FsModel := ⟨fun _ => false, fun _ => none⟩

/-- A filesystem on which every path exists but canonicalization always fails. -/
def fsNoCanon : FsModel := ⟨fun _ => true, fun _ => none⟩

theorem strStartsWith_two_char (e : String) (c1 c2 : Char) :
    strStartsWith e ⟨[c1, c2]⟩ = true ↔ ∃ t, e.data = c1 :: c2 :: t := by
  show ([c1, c2].isPrefixOf e.data) = true ↔ _
  constructor
  · intro h
    match hd : e.data with
    | [] => rw [hd] at h; simp [List.isPrefixOf] at h
    | [a] => rw [hd] at h; simp [List.isPrefixOf] at h
    | a :: b :: t =>
      rw [hd] at h
      simp [List.isPrefixOf] at h
      exact ⟨t, by rw [h.1, h.2]⟩
  · rintro ⟨t, ht⟩
    rw [ht]
    simp [List.isPrefixOf]

theorem startsWith_L_not_l (e : String) (h : strStartsWith e "-L" = true) :
    strStartsWith e "-l" = false := by
  obtain ⟨t, ht⟩ := (strStartsWith_two_char e '-' 'L').mp h
  apply Bool.eq_false_iff.mpr
  intro hc
  obtain ⟨u, hu⟩ := (strStartsWith_two_char e '-' 'l').mp hc
  rw [ht] at hu
  injection hu with h1 h2
  injection h2 with h3 h4
  exact absurd h3 (by decide)

theorem startsWith_l_not_L (e : String) (h : strStartsWith e "-l" = true) :
    strStartsWith e "-L" = false := by
  obtain ⟨t, ht⟩ := (strStartsWith_two_char e '-' 'l').mp h
  apply Bool.eq_false_iff.mpr
  intro hc
  obtain ⟨u, hu⟩ := (strStartsWith_two_char e '-' 'L').mp hc
  rw [ht] at hu
  injection hu with h1 h2
  injection h2 with h3 h4
  exact absurd h3 (by decide)

theorem mem_hsInsert (x y : String) (s : List String) :
    y ∈ hsInsert x s ↔ y = x ∨ y ∈ s := by
  unfold hsInsert
  split
  · constructor
    · exact fun h => Or.inr h
    · rintro (rfl | h)
      · assumption
      · exact h
  · exact List.mem_cons

theorem nodup_hsInsert (x : String) (s : List String) (h : s.Nodup) :
    (hsInsert x s).Nodup := by
  unfold hsInsert
  split
  · exact h
  · next hx => exact List.nodup_cons.mpr ⟨hx, h⟩

theorem mem_as_sorted_vec (s : List String) (x : String) :
    x ∈ as_sorted_vec s ↔ x ∈ s :=
  (List.perm_insertionSort strLe s).mem_iff

theorem nodup_as_sorted_vec (s : List String) (h : s.Nodup) :
    (as_sorted_vec s).Nodup :=
  ((List.perm_insertionSort strLe s).symm.nodup_iff).mp h

theorem sorted_as_sorted_vec (s : List String) :
    List.Sorted strLe (as_sorted_vec s) :=
  List.sorted_insertionSort strLe s

/-- The multiset of library names contributed by the `-l` tokens of a token
list (order of first appearance, duplicates kept). -/
def libsOf (tokens : List String) : List String :=
  (tokens.filter (fun e => strStartsWith e "-l")).map (fun e => trimStartMatches e "-l")

theorem parseEntries_libs_spec (fs : FsModel) :
    ∀ (tokens sp libs : List String) (info : LinkInfo),
      parseEntries fs tokens sp libs = .ok info →
      (∀ x, x ∈ info.libs ↔ x ∈ libs ∨ x ∈ libsOf tokens)
      ∧ (libs.Nodup → info.libs.Nodup)
      ∧ List.Sorted strLe info.libs := by
  intro tokens
  induction tokens with
  | nil =>
    intro sp libs info h
    simp only [parseEntries] at h
    obtain rfl := Except.ok.inj h
    refine ⟨?_, ?_, sorted_as_sorted_vec _⟩
    · intro x
      rw [mem_as_sorted_vec]
      simp [libsOf]
    · exact fun hn => nodup_as_sorted_vec _ hn
  | cons e rest ih =>
    intro sp libs info h
    by_cases hL : strStartsWith e "-L" = true
    · have hl : strStartsWith e "-l" = false := startsWith_L_not_l e hL
      have hlo : libsOf (e :: rest) = libsOf rest := by simp [libsOf, hl]
      by_cases hex : fs.pathExists (trimStartMatches e "-L") = false
      · have hpe : processEntry fs e sp libs = .ok (sp, libs) := by
          unfold processEntry
          simp [hL, hex]
        simp only [parseEntries, hpe] at h
        rw [hlo]
        exact ih sp libs info h
      · have hex2 : fs.pathExists (trimStartMatches e "-L") = true := by
          cases hb : fs.pathExists (trimStartMatches e "-L") with
          | false => exact absurd hb hex
          | true => rfl
        cases hc : fs.canonicalize (trimStartMatches e "-L") with
        | none =>
          have hpe : processEntry fs e sp libs = .error "Failed to canonicalize path" := by
            unfold processEntry
            simp [hL, hex2, hc]
          simp only [parseEntries, hpe] at h
          exact Except.noConfusion h
        | some c =>
          have hpe : processEntry fs e sp libs = .ok (hsInsert c sp, libs) := by
            unfold processEntry
            simp [hL, hex2, hc, hl]
          simp only [parseEntries, hpe] at h
          rw [hlo]
          exact ih (hsInsert c sp) libs info h
    · by_cases hlb : strStartsWith e "-l" = true
      · have hpe : processEntry fs e sp libs =
            .ok (sp, hsInsert (trimStartMatches e "-l") libs) := by
          unfold processEntry
          simp [hL, hlb]
        simp only [parseEntries, hpe] at h
        obtain ⟨hmem, hnd, hsort⟩ := ih sp (hsInsert (trimStartMatches e "-l") libs) info h
        refine ⟨?_, ?_, hsort⟩
        · intro x
          rw [hmem x, mem_hsInsert]
          simp only [libsOf, List.filter_cons, hlb, if_true, List.map_cons, List.mem_cons]
          tauto
        · exact fun hn => hnd (nodup_hsInsert _ _ hn)
      · have hpe : processEntry fs e sp libs = .ok (sp, libs) := by
          unfold processEntry
          simp [hL, hlb]
        simp only [parseEntries, hpe] at h
        have hlo : libsOf (e :: rest) = libsOf rest := by
          simp [libsOf, hlb]
        rw [hlo]
        exact ih sp libs info h

theorem processEntry_drop (fs : FsModel) (e : String) (sp libs : List String)
    (hL : strStartsWith e "-L" = true)
    (hex : fs.pathExists (trimStartMatches e "-L") = false) :
    processEntry fs e sp libs = .ok (sp, libs) := by
  unfold processEntry
  simp [hL, hex]

theorem parseEntries_drop (fs : FsModel) (e : String)
    (hL : strStartsWith e "-L" = true)
    (hex : fs.pathExists (trimStartMatches e "-L") = false) :
    ∀ (pre post sp libs : List String),
      parseEntries fs (pre ++ e :: post) sp libs = parseEntries fs (pre ++ post) sp libs := by
  intro pre
  induction pre with
  | nil =>
    intro post sp libs
    simp only [List.nil_append, parseEntries, processEntry_drop fs e sp libs hL hex]
  | cons a pre ih =>
    intro post sp libs
    simp only [List.cons_append, parseEntries]
    cases hpa : processEntry fs a sp libs with
    | error err => rfl
    | ok p =>
      obtain ⟨sp2, libs2⟩ := p
      exact ih post sp2 libs2

theorem processEntry_canon_fail (fs : FsModel) (e : String) (sp libs : List String)
    (hL : strStartsWith e "-L" = true)
    (hex : fs.pathExists (trimStartMatches e "-L") = true)
    (hc : fs.canonicalize (trimStartMatches e "-L") = none) :
    processEntry fs e sp libs = .error "Failed to canonicalize path" := by
  unfold processEntry
  simp [hL, hex, hc]

theorem parseEntries_error (fs : FsModel) (e : String)
    (hL : strStartsWith e "-L" = true)
    (hex : fs.pathExists (trimStartMatches e "-L") = true)
    (hc : fs.canonicalize (trimStartMatches e "-L") = none) :
    ∀ (pre post sp libs : List String),
      ∃ msg, parseEntries fs (pre ++ e :: post) sp libs = .error msg := by
  intro pre
  induction pre with
  | nil =>
    intro post sp libs
    refine ⟨"Failed to canonicalize path", ?_⟩
    simp only [List.nil_append, parseEntries,
      processEntry_canon_fail fs e sp libs hL hex hc]
  | cons a pre ih =>
    intro post sp libs
    simp only [List.cons_append, parseEntries]
    cases hpa : processEntry fs a sp libs with
    | error err => exact ⟨err, rfl⟩
    | ok p =>
      obtain ⟨sp2, libs2⟩ := p
      exact ih post sp2 libs2

/-- C3: a `-L` token whose (stripped) path does not exist is silently dropped
from the parse; a `-l` token is always kept, with no existence check; and on
the spec's example, `parse("-L/path/does/not/exist -lx")` yields empty
`search_paths` and `libs == ["x"]`. -/
theorem C3_missing_L_dropped_l_kept (fs : FsModel) :
    (∀ (pre post : List String) (e : String),
        strStartsWith e "-L" = true →
        fs.pathExists (trimStartMatches e "-L") = false →
        parseEntries fs (pre ++ e :: post) [] [] = parseEntries fs (pre ++ post) [] [])
    ∧ (∀ (line e : String) (info : LinkInfo),
        e ∈ splitStr ' ' line →
        strStartsWith e "-l" = true →
        LinkInfo.parse fs line = .ok info →
        trimStartMatches e "-l" ∈ info.libs)
    ∧ (fs.pathExists "/path/does/not/exist" = false →
        LinkInfo.parse fs "-L/path/does/not/exist -lx" = .ok ⟨[], ["x"]⟩) := by
  refine ⟨?_, ?_, ?_⟩
  · intro pre post e hL hex
    exact parseEntries_drop fs e hL hex pre post [] []
  · intro line e info he hl h
    obtain ⟨hmem, _, _⟩ := parseEntries_libs_spec fs (splitStr ' ' line) [] [] info h
    refine (hmem _).mpr (Or.inr ?_)
    exact List.mem_map.mpr ⟨e, List.mem_filter.mpr ⟨he, hl⟩, rfl⟩
  · intro hex
    unfold LinkInfo.parse
    have hsplit : splitStr ' ' "-L/path/does/not/exist -lx" =
        ["-L/path/does/not/exist", "-lx"] := by decide
    rw [hsplit]
    have htrim : trimStartMatches "-L/path/does/not/exist" "-L" = "/path/does/not/exist" := by
      decide
    have h1 : processEntry fs "-L/path/does/not/exist" [] [] = .ok ([], []) := by
      apply processEntry_drop
      · decide
      · rw [htrim]; exact hex
    simp only [parseEntries, h1]
    have h2 : processEntry fs "-lx" [] [] = .ok ([], ["x"]) := by
      unfold processEntry
      rw [show strStartsWith "-lx" "-L" = false from by decide]
      rw [show strStartsWith "-lx" "-l" = true from by decide]
      simp [hsInsert, show trimStartMatches "-lx" "-l" = "x" from by decide]
    simp only [parseEntries, h2]
    rfl

/-- C3 witness: the theorem instantiated on the trivial filesystem where no
path exists. -/
theorem C3_witness :
    LinkInfo.parse fsNone "-L/path/does/not/exist -lx" = .ok ⟨[], ["x"]⟩ :=
  (C3_missing_L_dropped_l_kept fsNone).2.2 rfl

/-- C4: the `libs` component of a parse result has no duplicates and is sorted
ascending (lexicographically), and permuting the tokens of the input string
(in particular its `-l` tokens) leaves `libs` unchanged. -/
theorem C4_libs_sorted_nodup_perm_invariant (fs : FsModel) (line1 line2 : String)
    (info1 info2 : LinkInfo)
    (h1 : LinkInfo.parse fs line1 = .ok info1)
    (h2 : LinkInfo.parse fs line2 = .ok info2)
    (hperm : (splitStr ' ' line1).Perm (splitStr ' ' line2)) :
    info1.libs.Nodup ∧ List.Sorted strLe info1.libs ∧ info1.libs = info2.libs := by
  obtain ⟨hm1, hn1, hs1⟩ := parseEntries_libs_spec fs (splitStr ' ' line1) [] [] info1 h1
  obtain ⟨hm2, hn2, hs2⟩ := parseEntries_libs_spec fs (splitStr ' ' line2) [] [] info2 h2
  have hnd1 := hn1 List.nodup_nil
  have hnd2 := hn2 List.nodup_nil
  refine ⟨hnd1, hs1, ?_⟩
  have hp : (libsOf (splitStr ' ' line1)).Perm (libsOf (splitStr ' ' line2)) :=
    (hperm.filter _).map _
  have hmem : ∀ x, x ∈ info1.libs ↔ x ∈ info2.libs := by
    intro x
    rw [hm1 x, hm2 x]
    simp only [List.not_mem_nil, false_or]
    exact hp.mem_iff
  exact List.eq_of_perm_of_sorted
    ((List.perm_ext_iff_of_nodup hnd1 hnd2).mpr hmem) hs1 hs2

/-- C4 witness: duplicate `-l` tokens in permuted order on a filesystem with
no existing paths. -/
theorem C4_witness :
    (LinkInfo.libs ⟨[], ["bar", "foo"]⟩).Nodup
    ∧ List.Sorted strLe (LinkInfo.libs ⟨[], ["bar", "foo"]⟩)
    ∧ LinkInfo.libs ⟨[], ["bar", "foo"]⟩ = LinkInfo.libs ⟨[], ["bar", "foo"]⟩ :=
  C4_libs_sorted_nodup_perm_invariant fsNone "-lfoo -lbar -lfoo" "-lbar -lfoo -lfoo"
    ⟨[], ["bar", "foo"]⟩ ⟨[], ["bar", "foo"]⟩ (by decide) (by decide) (by decide)

/-- C7: if some token of the flag string starts with `-L`, its stripped path
exists, and canonicalization of that path fails, then `parse` surfaces an
explicit error to the caller (it does not return an `ok` result with the path
dropped). -/
theorem C7_canonicalize_failure_is_error (fs : FsModel) (line e : String)
    (he : e ∈ splitStr ' ' line)
    (hL : strStartsWith e "-L" = true)
    (hex : fs.pathExists (trimStartMatches e "-L") = true)
    (hc : fs.canonicalize (trimStartMatches e "-L") = none) :
    ∃ msg, LinkInfo.parse fs line = .error msg := by
  obtain ⟨pre, post, hsplit⟩ := List.append_of_mem he
  unfold LinkInfo.parse
  rw [hsplit]
  exact parseEntries_error fs e hL hex hc pre post [] []

/-- C7 witness: on a filesystem where every path exists but canonicalization
always fails, parsing `-L/a` errors out. -/
theorem C7_witness : ∃ msg, LinkInfo.parse fsNoCanon "-L/a" = .error msg :=
  C7_canonicalize_failure_is_error fsNoCanon "-L/a" "-L/a" (by decide) (by decide) rfl rfl

theorem except_bind_ok {a b : Type} (x : Except String a) (f : a → Except String b) (r : b)
    (h : (x >>= f) = .ok r) : ∃ w, x = .ok w ∧ f w = .ok r := by
  cases x with
  | error e => exact Except.noConfusion h
  | ok w => exact ⟨w, rfl, h⟩

theorem makeconf_fold_cons (fs : FsModel) (d : MakeConf) (line : String) (lines : List String) :
    List.foldlM (MakeConf.processLine fs) d (line :: lines) =
      (MakeConf.processLine fs d line) >>= fun d2 =>
        List.foldlM (MakeConf.processLine fs) d2 lines := rfl

theorem makeconf_fold_append_ok (fs : FsModel) :
    ∀ (l1 l2 : List String) (d conf : MakeConf),
      List.foldlM (MakeConf.processLine fs) d (l1 ++ l2) = .ok conf →
      ∃ mid, List.foldlM (MakeConf.processLine fs) d l1 = .ok mid ∧
             List.foldlM (MakeConf.processLine fs) mid l2 = .ok conf := by
  intro l1
  induction l1 with
  | nil =>
    intro l2 d conf h
    exact ⟨d, rfl, h⟩
  | cons a l1 ih =>
    intro l2 d conf h
    rw [List.cons_append, makeconf_fold_cons] at h
    obtain ⟨d2, hd2, hrest⟩ := except_bind_ok _ _ _ h
    obtain ⟨mid, hm1, hm2⟩ := ih l2 d2 conf hrest
    refine ⟨mid, ?_, hm2⟩
    rw [makeconf_fold_cons, hd2]
    exact hm1

theorem processLine_skip (fs : FsModel) (d : MakeConf) (line : String)
    (h : line.length = 0 ∨ (splitStr '=' line).length ≠ 2 ∨
         (∃ k v, splitStr '=' line = [k, v] ∧
            k ≠ "OSNAME" ∧ k ≠ "NOFORTRAN" ∧ k ≠ "CEXTRALIB" ∧ k ≠ "FEXTRALIB")) :
    MakeConf.processLine fs d line = .ok d := by
  unfold MakeConf.processLine
  by_cases hlen : line.length = 0
  · rw [if_pos hlen]
  · rw [if_neg hlen]
    rcases h with h | h | h
    · exact absurd h hlen
    · rcases hsp : splitStr '=' line with _ | ⟨k, _ | ⟨v, _ | ⟨w, t⟩⟩⟩
      · rfl
      · rfl
      · rw [hsp] at h; simp at h
      · rfl
    · obtain ⟨k, v, hsp, h1, h2, h3, h4⟩ := h
      rw [hsp]
      simp [MakeConf.applyEntry, h1, h2, h3, h4]

theorem processLine_set (fs : FsModel) (d : MakeConf) (line k v : String)
    (hsp : splitStr '=' line = [k, v]) :
    (k = "OSNAME" → MakeConf.processLine fs d line = .ok { d with os_name := v })
    ∧ (k = "NOFORTRAN" → MakeConf.processLine fs d line = .ok { d with no_fortran := true })
    ∧ (k = "CEXTRALIB" → MakeConf.processLine fs d line =
        (match LinkInfo.parse fs v with
         | .error e => .error e
         | .ok li => .ok { d with c_extra_libs := li }))
    ∧ (k = "FEXTRALIB" → MakeConf.processLine fs d line =
        (match LinkInfo.parse fs v with
         | .error e => .error e
         | .ok li => .ok { d with f_extra_libs := li })) := by
  have hlen : ¬ line.length = 0 := by
    intro h0
    have hdata : line.data = [] := List.length_eq_zero.mp h0
    have hone : splitStr '=' line = [⟨[]⟩] := by
      unfold splitStr
      rw [hdata]
      rfl
    rw [hone] at hsp
    simp at hsp
  unfold MakeConf.processLine
  rw [if_neg hlen, hsp]
  refine ⟨?_, ?_, ?_, ?_⟩
  · intro hk; subst hk; simp [MakeConf.applyEntry]
  · intro hk; subst hk; simp [MakeConf.applyEntry]
  · intro hk; subst hk; simp [MakeConf.applyEntry]
  · intro hk; subst hk; simp [MakeConf.applyEntry]

theorem processLine_preserve (fs : FsModel) (d d2 : MakeConf) (line k : String)
    (h : MakeConf.processLine fs d line = .ok d2)
    (hno : ∀ v, splitStr '=' line ≠ [k, v]) :
    (k = "OSNAME" → d2.os_name = d.os_name)
    ∧ (k = "NOFORTRAN" → d2.no_fortran = d.no_fortran)
    ∧ (k = "CEXTRALIB" → d2.c_extra_libs = d.c_extra_libs)
    ∧ (k = "FEXTRALIB" → d2.f_extra_libs = d.f_extra_libs) := by
  unfold MakeConf.processLine at h
  by_cases hlen : line.length = 0
  · rw [if_pos hlen] at h
    obtain rfl := Except.ok.inj h
    exact ⟨fun _ => rfl, fun _ => rfl, fun _ => rfl, fun _ => rfl⟩
  · rw [if_neg hlen] at h
    rcases hsp : splitStr '=' line with _ | ⟨k1, _ | ⟨v1, _ | ⟨w, t⟩⟩⟩ <;> rw [hsp] at h
    · obtain rfl := Except.ok.inj h
      exact ⟨fun _ => rfl, fun _ => rfl, fun _ => rfl, fun _ => rfl⟩
    · obtain rfl := Except.ok.inj h
      exact ⟨fun _ => rfl, fun _ => rfl, fun _ => rfl, fun _ => rfl⟩
    · replace h : MakeConf.applyEntry fs d k1 v1 = .ok d2 := h
      unfold MakeConf.applyEntry at h
      by_cases h1 : k1 = "OSNAME"
      · subst h1
        rw [if_pos rfl] at h
        obtain rfl := Except.ok.inj h
        refine ⟨fun hk => ?_, fun _ => rfl, fun _ => rfl, fun _ => rfl⟩
        exact absurd hsp (hk ▸ hno v1)
      · rw [if_neg h1] at h
        by_cases h2 : k1 = "NOFORTRAN"
        · subst h2
          rw [if_pos rfl] at h
          obtain rfl := Except.ok.inj h
          refine ⟨fun _ => rfl, fun hk => ?_, fun _ => rfl, fun _ => rfl⟩
          exact absurd hsp (hk ▸ hno v1)
        · rw [if_neg h2] at h
          by_cases h3 : k1 = "CEXTRALIB"
          · subst h3
            rw [if_pos rfl] at h
            cases hp : LinkInfo.parse fs v1 with
            | error e => rw [hp] at h; exact Except.noConfusion h
            | ok li =>
              rw [hp] at h
              obtain rfl := Except.ok.inj h
              refine ⟨fun _ => rfl, fun _ => rfl, fun hk => ?_, fun _ => rfl⟩
              exact absurd hsp (hk ▸ hno v1)
          · rw [if_neg h3] at h
            by_cases h4 : k1 = "FEXTRALIB"
            · subst h4
              rw [if_pos rfl] at h
              cases hp : LinkInfo.parse fs v1 with
              | error e => rw [hp] at h; exact Except.noConfusion h
              | ok li =>
                rw [hp] at h
                obtain rfl := Except.ok.inj h
                refine ⟨fun _ => rfl, fun _ => rfl, fun _ => rfl, fun hk => ?_⟩
                exact absurd hsp (hk ▸ hno v1)
            · rw [if_neg h4] at h
              obtain rfl := Except.ok.inj h
              exact ⟨fun _ => rfl, fun _ => rfl, fun _ => rfl, fun _ => rfl⟩
    · obtain rfl := Except.ok.inj h
      exact ⟨fun _ => rfl, fun _ => rfl, fun _ => rfl, fun _ => rfl⟩

theorem makeconf_fold_preserve (fs : FsModel) (k : String) :
    ∀ (lines : List String) (d conf : MakeConf),
      List.foldlM (MakeConf.processLine fs) d lines = .ok conf →
      (∀ l ∈ lines, ∀ v, splitStr '=' l ≠ [k, v]) →
      (k = "OSNAME" → conf.os_name = d.os_name)
      ∧ (k = "NOFORTRAN" → conf.no_fortran = d.no_fortran)
      ∧ (k = "CEXTRALIB" → conf.c_extra_libs = d.c_extra_libs)
      ∧ (k = "FEXTRALIB" → conf.f_extra_libs = d.f_extra_libs) := by
  intro lines
  induction lines with
  | nil =>
    intro d conf h hno
    obtain rfl := Except.ok.inj h
    exact ⟨fun _ => rfl, fun _ => rfl, fun _ => rfl, fun _ => rfl⟩
  | cons a lines ih =>
    intro d conf h hno
    rw [makeconf_fold_cons] at h
    obtain ⟨d2, hd2, hrest⟩ := except_bind_ok _ _ _ h
    have hpa := processLine_preserve fs d d2 a k hd2
      (fun v => hno a (List.mem_cons_self a lines) v)
    have hpr := ih d2 conf hrest (fun l hl v => hno l (List.mem_cons_of_mem a hl) v)
    exact ⟨fun hk => (hpr.1 hk).trans (hpa.1 hk),
           fun hk => (hpr.2.1 hk).trans (hpa.2.1 hk),
           fun hk => (hpr.2.2.1 hk).trans (hpa.2.2.1 hk),
           fun hk => (hpr.2.2.2 hk).trans (hpa.2.2.2 hk)⟩

theorem processLine_no_fortran_mono (fs : FsModel) (d d2 : MakeConf) (line : String)
    (h : MakeConf.processLine fs d line = .ok d2) (hd : d.no_fortran = true) :
    d2.no_fortran = true := by
  unfold MakeConf.processLine at h
  by_cases hlen : line.length = 0
  · rw [if_pos hlen] at h
    obtain rfl := Except.ok.inj h
    exact hd
  · rw [if_neg hlen] at h
    rcases hsp : splitStr '=' line with _ | ⟨k1, _ | ⟨v1, _ | ⟨w, t⟩⟩⟩ <;> rw [hsp] at h
    · obtain rfl := Except.ok.inj h; exact hd
    · obtain rfl := Except.ok.inj h; exact hd
    · replace h : MakeConf.applyEntry fs d k1 v1 = .ok d2 := h
      unfold MakeConf.applyEntry at h
      by_cases h1 : k1 = "OSNAME"
      · subst h1; rw [if_pos rfl] at h
        obtain rfl := Except.ok.inj h; exact hd
      · rw [if_neg h1] at h
        by_cases h2 : k1 = "NOFORTRAN"
        · subst h2; rw [if_pos rfl] at h
          obtain rfl := Except.ok.inj h; rfl
        · rw [if_neg h2] at h
          by_cases h3 : k1 = "CEXTRALIB"
          · subst h3; rw [if_pos rfl] at h
            cases hp : LinkInfo.parse fs v1 with
            | error e => rw [hp] at h; exact Except.noConfusion h
            | ok li => rw [hp] at h; obtain rfl := Except.ok.inj h; exact hd
          · rw [if_neg h3] at h
            by_cases h4 : k1 = "FEXTRALIB"
            · subst h4; rw [if_pos rfl] at h
              cases hp : LinkInfo.parse fs v1 with
              | error e => rw [hp] at h; exact Except.noConfusion h
              | ok li => rw [hp] at h; obtain rfl := Except.ok.inj h; exact hd
            · rw [if_neg h4] at h
              obtain rfl := Except.ok.inj h; exact hd
    · obtain rfl := Except.ok.inj h; exact hd

theorem makeconf_fold_no_fortran_mono (fs : FsModel) :
    ∀ (lines : List String) (d conf : MakeConf),
      List.foldlM (MakeConf.processLine fs) d lines = .ok conf →
      d.no_fortran = true → conf.no_fortran = true := by
  intro lines
  induction lines with
  | nil =>
    intro d conf h hd
    obtain rfl := Except.ok.inj h
    exact hd
  | cons a lines ih =>
    intro d conf h hd
    rw [makeconf_fold_cons] at h
    obtain ⟨d2, hd2, hrest⟩ := except_bind_ok _ _ _ h
    exact ih d2 conf hrest (processLine_no_fortran_mono fs d d2 a hd2 hd)

/-- C5: a well-formed `NOFORTRAN=<anything>` line disables Fortran support
regardless of its value (`no_fortran = true`), and with no such line Fortran
support stays enabled (`no_fortran = false`, the default). -/
theorem C5_nofortran_presence (fs : FsModel) (lines : List String) (conf : MakeConf)
    (hok : MakeConf.new fs lines = .ok conf) :
    ((∃ line ∈ lines, ∃ v, splitStr '=' line = ["NOFORTRAN", v]) →
        conf.no_fortran = true)
    ∧ ((∀ line ∈ lines, ∀ v, splitStr '=' line ≠ ["NOFORTRAN", v]) →
        conf.no_fortran = false) := by
  constructor
  · rintro ⟨line, hmem, v, hsp⟩
    obtain ⟨l1, l2, rfl⟩ := List.append_of_mem hmem
    unfold MakeConf.new at hok
    obtain ⟨mid, hm1, hm2⟩ := makeconf_fold_append_ok fs l1 (line :: l2) _ conf hok
    rw [makeconf_fold_cons] at hm2
    obtain ⟨d2, hd2, hrest⟩ := except_bind_ok _ _ _ hm2
    have hset : d2.no_fortran = true := by
      have hf := (processLine_set fs mid line "NOFORTRAN" v hsp).2.1 rfl
      obtain rfl := Except.ok.inj (hf.symm.trans hd2)
      rfl
    exact makeconf_fold_no_fortran_mono fs l2 d2 conf hrest hset
  · intro hall
    unfold MakeConf.new at hok
    have hpr := makeconf_fold_preserve fs "NOFORTRAN" lines MakeConf.default conf hok hall
    exact hpr.2.1 rfl

/-- C5 witness: `NOFORTRAN=0` disables Fortran even though the value is `0`. -/
theorem C5_witness :
    MakeConf.no_fortran ⟨"", true, ⟨[], []⟩, ⟨[], []⟩⟩ = true :=
  (C5_nofortran_presence fsNone ["NOFORTRAN=0"] ⟨"", true, ⟨[], []⟩, ⟨[], []⟩⟩
      (by decide)).1 ⟨"NOFORTRAN=0", by decide, "0", by decide⟩

theorem makeconf_fold_skip (fs : FsModel) (line : String)
    (h : line.length = 0 ∨ (splitStr '=' line).length ≠ 2 ∨
         (∃ k v, splitStr '=' line = [k, v] ∧
            k ≠ "OSNAME" ∧ k ≠ "NOFORTRAN" ∧ k ≠ "CEXTRALIB" ∧ k ≠ "FEXTRALIB")) :
    ∀ (pre post : List String) (d : MakeConf),
      List.foldlM (MakeConf.processLine fs) d (pre ++ line :: post) =
        List.foldlM (MakeConf.processLine fs) d (pre ++ post) := by
  intro pre
  induction pre with
  | nil =>
    intro post d
    rw [List.nil_append, List.nil_append, makeconf_fold_cons, processLine_skip fs d line h]
    rfl
  | cons a pre ih =>
    intro post d
    rw [List.cons_append, List.cons_append, makeconf_fold_cons, makeconf_fold_cons]
    cases hpa : MakeConf.processLine fs d a with
    | error err => rfl
    | ok d2 => exact ih post d2

/-- C6: an empty line, a line that does not split on `=` into exactly two
parts, or a line with an unrecognized key, is skipped without error: removing
such a line from the file does not change the parse result, and parsing
continues over the remaining lines. -/
theorem C6_malformed_lines_skipped (fs : FsModel) (pre post : List String) (line : String)
    (h : line.length = 0 ∨ (splitStr '=' line).length ≠ 2 ∨
         (∃ k v, splitStr '=' line = [k, v] ∧
            k ≠ "OSNAME" ∧ k ≠ "NOFORTRAN" ∧ k ≠ "CEXTRALIB" ∧ k ≠ "FEXTRALIB")) :
    MakeConf.new fs (pre ++ line :: post) = MakeConf.new fs (pre ++ post) := by
  unfold MakeConf.new
  exact makeconf_fold_skip fs line h pre post MakeConf.default

/-- C6 witness: a comment line between two recognized lines is skipped. -/
theorem C6_witness :
    MakeConf.new fsNone ["OSNAME=Linux", "# comment", "NOFORTRAN=1"] =
      MakeConf.new fsNone ["OSNAME=Linux", "NOFORTRAN=1"] :=
  C6_malformed_lines_skipped fsNone ["OSNAME=Linux"] ["NOFORTRAN=1"] "# comment"
    (Or.inr (Or.inl (by decide)))

/-- C10: when a recognized key occurs on a well-formed line and no later line
carries that key again, the corresponding field of the parse result is the one
set by that (last) line — each later occurrence overwrites earlier ones. -/
theorem C10_last_occurrence_wins (fs : FsModel) (pre post : List String)
    (line k v : String) (conf : MakeConf)
    (hline : splitStr '=' line = [k, v])
    (hpost : ∀ l ∈ post, ∀ w, splitStr '=' l ≠ [k, w])
    (hok : MakeConf.new fs (pre ++ line :: post) = .ok conf) :
    (k = "OSNAME" → conf.os_name = v)
    ∧ (k = "NOFORTRAN" → conf.no_fortran = true)
    ∧ (k = "CEXTRALIB" → LinkInfo.parse fs v = .ok conf.c_extra_libs)
    ∧ (k = "FEXTRALIB" → LinkInfo.parse fs v = .ok conf.f_extra_libs) := by
  unfold MakeConf.new at hok
  obtain ⟨mid, hm1, hm2⟩ := makeconf_fold_append_ok fs pre (line :: post) _ conf hok
  rw [makeconf_fold_cons] at hm2
  obtain ⟨d2, hd2, hrest⟩ := except_bind_ok _ _ _ hm2
  have hpres := makeconf_fold_preserve fs k post d2 conf hrest hpost
  have hset := processLine_set fs mid line k v hline
  refine ⟨?_, ?_, ?_, ?_⟩
  · intro hk
    obtain rfl := Except.ok.inj ((hset.1 hk).symm.trans hd2)
    rw [hpres.1 hk]
  · intro hk
    obtain rfl := Except.ok.inj ((hset.2.1 hk).symm.trans hd2)
    rw [hpres.2.1 hk]
  · intro hk
    have h1 := hset.2.2.1 hk
    rw [h1] at hd2
    cases hp : LinkInfo.parse fs v with
    | error e => rw [hp] at hd2; exact Except.noConfusion hd2
    | ok li =>
      rw [hp] at hd2
      obtain rfl := Except.ok.inj hd2
      rw [hpres.2.2.1 hk]
  · intro hk
    have h1 := hset.2.2.2 hk
    rw [h1] at hd2
    cases hp : LinkInfo.parse fs v with
    | error e => rw [hp] at hd2; exact Except.noConfusion hd2
    | ok li =>
      rw [hp] at hd2
      obtain rfl := Except.ok.inj hd2
      rw [hpres.2.2.2 hk]

/-- C10 witness: a second `OSNAME` line overwrites the first. -/
theorem C10_witness :
    MakeConf.os_name ⟨"Linux", false, ⟨[], []⟩, ⟨[], []⟩⟩ = "Linux" :=
  (C10_last_occurrence_wins fsNone ["OSNAME=First"] [] "OSNAME=Linux" "OSNAME" "Linux"
      ⟨"Linux", false, ⟨[], []⟩, ⟨[], []⟩⟩ (by decide)
      (fun l hl w => absurd hl (List.not_mem_nil l)) (by decide)).1 rfl

/-- C1: evaluation of the nm-line classifier at a three-field line whose type
marker is `W` (not `T`).  The claim demands rejection (third field not `"T"`),
but the code's condition `entry.len() != 3 && entry[2] == "T"` is false for
every exactly-three-field line, so the symbol is accepted and collected;
likewise a genuine `T` line is accepted even though its third field
(`zupmtr_`) differs from `"T"`. -/
theorem C1_code_accepts_non_T_marker :
    parseNmLine "0000000000909b30 W datasym" = .ok (some "datasym")
    ∧ parseNmLine "0000000000909b30 T zupmtr_" = .ok (some "zupmtr_") :=
  ⟨by decide, by decide⟩

/-- C2: evaluation of the nm-line classifier at a two-field line (the shape
`nm -g` emits for undefined symbols).  The claim says such lines are skipped
and processing is total, but the code evaluates `entry[2]` inside
`entry.len() != 3 && entry[2] == "T"`, which is an out-of-bounds access
(a panic, modelled as the error case). -/
theorem C2_code_out_of_bounds_on_short_line :
    parseNmLine "                 U abort" = .error "index out of bounds"
    ∧ (LibDetail.new fsNoCanon "libfoo.a" ["                 U abort"] [] =
        .error "index out of bounds") :=
  ⟨by decide, by decide⟩

theorem splitOnChar_head (c : Char) (s : List Char) :
    ∃ t, splitOnChar c s = (s.takeWhile (fun a => a != c)) :: t := by
  induction s with
  | nil => exact ⟨[], rfl⟩
  | cons a rest ih =>
    by_cases hac : a = c
    · subst hac
      refine ⟨splitOnChar a rest, ?_⟩
      simp [splitOnChar, List.takeWhile_cons]
    · obtain ⟨t0, ht0⟩ := ih
      refine ⟨t0, ?_⟩
      simp only [splitOnChar, if_neg hac, ht0, List.takeWhile_cons, bne_iff_ne, ne_eq, hac,
        not_false_eq_true, if_true, ite_false]

/-- The spec's "entry truncated at its first `.` character". -/
def truncAtFirst (c : Char) (s : String) : String :=
  ⟨s.data.takeWhile (fun a => a != c)⟩

/-- C8: `has_lib name` holds exactly when some dependency entry, truncated at
its first `.`, equals `"lib" ++ name`; in particular `libm.so.6` makes
`has_lib "m"` true while `libmvec.so.1` alone does not. -/
theorem C8_has_lib_iff (d : LibDetail) (name : String) :
    (d.has_lib name = true ↔
      ∃ lib ∈ d.libs, truncAtFirst '.' lib = "lib" ++ name)
    ∧ (LibDetail.mk "" ["libm.so.6"] []).has_lib "m" = true
    ∧ (LibDetail.mk "" ["libmvec.so.1"] []).has_lib "m" = false := by
  refine ⟨?_, by decide, by decide⟩
  unfold LibDetail.has_lib
  rw [List.any_eq_true]
  constructor
  · rintro ⟨lib, hmem, hp⟩
    obtain ⟨t0, ht0⟩ := splitOnChar_head '.' lib.data
    refine ⟨lib, hmem, ?_⟩
    simp only [splitStr, ht0, List.map_cons, List.head?_cons] at hp
    exact of_decide_eq_true hp
  · rintro ⟨lib, hmem, hp⟩
    obtain ⟨t0, ht0⟩ := splitOnChar_head '.' lib.data
    refine ⟨lib, hmem, ?_⟩
    simp only [splitStr, ht0, List.map_cons, List.head?_cons]
    exact decide_eq_true hp

theorem strData_append (s t : String) : (s ++ t).data = s.data ++ t.data := rfl

theorem strStartsWith_iff (s pre : String) :
    strStartsWith s pre = true ↔ ∃ rest : String, s = pre ++ rest := by
  unfold strStartsWith
  rw [List.isPrefixOf_iff_prefix]
  constructor
  · rintro ⟨t, ht⟩
    refine ⟨⟨t⟩, ?_⟩
    cases s with
    | mk data =>
      apply congrArg String.mk
      exact ht.symm
  · rintro ⟨rest, rfl⟩
    exact ⟨rest.data, (strData_append pre rest).symm⟩

/-- C9: `has_cblas` holds iff some exported symbol begins with `cblas_`,
`has_lapack` iff the exact symbol `dsyev_` is exported, `has_lapacke` iff some
exported symbol begins with `LAPACKE_`; and on the symbol set
`{cblas_dgemm, dsyev_, foo}` the three predicates evaluate to true, true,
false respectively. -/
theorem C9_capability_predicates (d : LibDetail) :
    (d.has_cblas = true ↔ ∃ sym ∈ d.symbols, ∃ rest : String, sym = "cblas_" ++ rest)
    ∧ (d.has_lapack = true ↔ "dsyev_" ∈ d.symbols)
    ∧ (d.has_lapacke = true ↔ ∃ sym ∈ d.symbols, ∃ rest : String, sym = "LAPACKE_" ++ rest)
    ∧ (LibDetail.mk "" [] ["cblas_dgemm", "dsyev_", "foo"]).has_cblas = true
    ∧ (LibDetail.mk "" [] ["cblas_dgemm", "dsyev_", "foo"]).has_lapack = true
    ∧ (LibDetail.mk "" [] ["cblas_dgemm", "dsyev_", "foo"]).has_lapacke = false := by
  refine ⟨?_, ?_, ?_, by decide, by decide, by decide⟩
  · unfold LibDetail.has_cblas
    rw [List.any_eq_true]
    constructor
    · rintro ⟨sym, hmem, hp⟩
      exact ⟨sym, hmem, (strStartsWith_iff sym "cblas_").mp hp⟩
    · rintro ⟨sym, hmem, hp⟩
      exact ⟨sym, hmem, (strStartsWith_iff sym "cblas_").mpr hp⟩
  · unfold LibDetail.has_lapack
    rw [List.any_eq_true]
    constructor
    · rintro ⟨sym, hmem, hp⟩
      obtain rfl := of_decide_eq_true hp
      exact hmem
    · intro hm
      exact ⟨"dsyev_", hm, decide_eq_true rfl⟩
  · unfold LibDetail.has_lapacke
    rw [List.any_eq_true]
    constructor
    · rintro ⟨sym, hmem, hp⟩
      exact ⟨sym, hmem, (strStartsWith_iff sym "LAPACKE_").mp hp⟩
    · rintro ⟨sym, hmem, hp⟩
      exact ⟨sym, hmem, (strStartsWith_iff sym "LAPACKE_").mpr hp⟩

/-- C8 witness: the iff applied to the artifact depending on `libm.so.6`. -/
theorem C8_witness : (LibDetail.mk "" ["libm.so.6"] []).has_lib "m" = true :=
  ((C8_has_lib_iff (LibDetail.mk "" ["libm.so.6"] []) "m").1).mpr
    ⟨"libm.so.6", by decide, by decide⟩

/-- C9 witness: the `dsyev_` marker criterion applied to the example symbol
set. -/
theorem C9_witness :
    (LibDetail.mk "" [] ["cblas_dgemm", "dsyev_", "foo"]).has_lapack = true :=
  (C9_capability_predicates (LibDetail.mk "" [] ["cblas_dgemm", "dsyev_", "foo"])).2.1.mpr
    (by decide)
